import Mathlib

/-!
Shallow embedding of the `extract_company_info` pipeline
(`src/extract_company_info/utils.py` and `src/extract_company_info/main.py`).

Strings are modelled as their `List Char` of Unicode code points.  Python's
Unicode-aware character classes (`\d`, `\w`, `str.lower`, `str.strip`) are
modelled on the ASCII and Cyrillic ranges, which cover every string the
pipeline and its documented examples manipulate.  `re` regexes are unfolded
into explicit recursive scanners with Python's leftmost-match semantics.
`list(set(...))` (whose order Python leaves unspecified) is modelled as
`List.dedup`; every theorem stated about it is order-insensitive.
-/

/-- Python `\d` on the ASCII range: a decimal digit `0`–`9`. -/
def isDigitC (c : Char) : Bool :=
  48 ≤ c.toNat && c.toNat ≤ 57

/-- Whitespace stripped by Python `str.strip()` (ASCII scope of the model). -/
def isSpaceC (c : Char) : Bool :=
  c = ' ' || c = '\t' || c = '\n' || c = '\r' || c = '\x0b' || c = '\x0c'

/-- Python `str.lower` / `re.IGNORECASE` case folding, modelled on the ASCII
letters `A`–`Z` and the Cyrillic letters `А`–`Я` (U+0410–U+042F) and `Ё`. -/
def lowerChar (c : Char) : Char :=
  if 65 ≤ c.toNat ∧ c.toNat ≤ 90 then Char.ofNat (c.toNat + 32)
  else if 1040 ≤ c.toNat ∧ c.toNat ≤ 1071 then Char.ofNat (c.toNat + 32)
  else if c.toNat = 1025 then Char.ofNat (1105)
  else c

/-- Lowercase every character: Python `str.lower()`. -/
def lowerL (cs : List Char) : List Char :=
  cs.map lowerChar

/-- Python `str.lower()` packaged on `String`. -/
def lowerStr (s : String) : String :=
  String.mk (lowerL s.data)

/-- Does the second list start with the first one (pattern first)? -/
def startsL : List Char → List Char → Bool
  | [], _ => true
  | _ :: _, [] => false
  | t :: ts, c :: cs => t = c && startsL ts cs

/-- Case-insensitive `startsL`: the pattern is given lowercased and the
scanned text is folded through `lowerChar`, as `re.IGNORECASE` does. -/
def startsCI : List Char → List Char → Bool
  | [], _ => true
  | _ :: _, [] => false
  | t :: ts, c :: cs => t = lowerChar c && startsCI ts cs

/-- Python's substring test `pat in s`: does `pat` occur anywhere in `cs`? -/
def hasSub (pat : List Char) : List Char → Bool
  | [] => startsL pat []
  | c :: rest => startsL pat (c :: rest) || hasSub pat rest

/-- Python `str.strip()`: drop whitespace from both ends. -/
def trimChars (cs : List Char) : List Char :=
  ((cs.dropWhile isSpaceC).reverse.dropWhile isSpaceC).reverse

/-- Does one of the truncation markers of `utils.py` line 84 —
`fax`, `e-?mail`, `факс`, `тел`, case-insensitively — start here? -/
def markerAt (cs : List Char) : Bool :=
  startsCI (("fax").data) cs || startsCI (("email").data) cs ||
    startsCI (("e-mail").data) cs || startsCI (("факс").data) cs ||
    startsCI (("тел").data) cs

/-- `re.split(r'(fax|e-?mail|факс|тел)', phone, flags=re.IGNORECASE)[0]`
(utils.py line 84): the prefix of the string before the leftmost
case-insensitive occurrence of any marker. -/
def truncMarkers : List Char → List Char
  | [] => []
  | c :: rest => if markerAt (c :: rest) then [] else c :: truncMarkers rest

/-- `re.sub(r'[^\d+]', '', phone)` (utils.py line 87): keep only decimal
digits and `+`. -/
def keepDigitPlus (cs : List Char) : List Char :=
  cs.filter (fun c => isDigitC c || c = '+')

/-- utils.py lines 90–91: if more than one `+` remains, remove all of them
and prepend a single leading `+`. -/
def collapsePlus (cs : List Char) : List Char :=
  if 1 < cs.count '+' then '+' :: cs.filter (fun c => c ≠ '+') else cs

/-- `re.fullmatch(r'0\d{8,9}', phone)` (utils.py line 98): a literal `0`
followed by 8 or 9 decimal digits and nothing else. -/
def isLocalForm (cs : List Char) : Bool :=
  match cs with
  | c :: rest => c = '0' && (rest.all isDigitC && (rest.length = 8 || rest.length = 9))
  | [] => false

/-- utils.py lines 94–99: drop the redundant zero after `+359`, else turn a
pure local `0...` number into `+359...`. -/
def fixCountryCode (cs : List Char) : List Char :=
  if startsL (("+3590").data) cs then ("+359").data ++ cs.drop 5
  else if isLocalForm cs then ("+359").data ++ cs.drop 1
  else cs

/-- The transformation chain of the `for phone in phones` loop body
(utils.py lines 81–99): replace non-breaking spaces and strip (line 81),
truncate at the first marker (line 84), keep digits and `+` (line 87),
collapse multiple `+` (lines 90–91), fix the country code (lines 94–99). -/
def phonePipeline (p : String) : List Char :=
  fixCountryCode (collapsePlus (keepDigitPlus (truncMarkers
    (trimChars ((p.data).map (fun c => if c = '\u00A0' then ' ' else c))))))

/-- The full loop body of `clean_phone_number` (utils.py lines 79–105);
`none` models the `continue` at line 103 that skips fragments shorter than
10 characters or not starting with `+`. -/
def processPhone (p : String) : Option String :=
  if (phonePipeline p).length < 10 ∨ (phonePipeline p).head? ≠ some '+' then none
  else some (String.mk (phonePipeline p))

/-- `clean_phone_number` (utils.py lines 54–107).  The final
`list(set(clean_phones))` has unspecified order in Python; it is modelled
as `List.dedup` of the accumulation order. -/
def clean_phone_number (phones : List String) : List String :=
  if phones = [] then [] else (phones.filterMap processPhone).dedup

/-- Python `str.split('.')`: split into dot-free parts; always nonempty. -/
def splitDot : List Char → List (List Char)
  | [] => [[]]
  | c :: rest =>
    if c = '.' then [] :: splitDot rest
    else
      match splitDot rest with
      | p :: ps => (c :: p) :: ps
      | [] => [[c]]

/-- Python `'.'.join(parts)`. -/
def joinDot : List (List Char) → List Char
  | [] => []
  | [p] => p
  | p :: q :: ps => p ++ '.' :: joinDot (q :: ps)

/-- Python `str.replace(p1p2p3, '')` for a three-character pattern: remove
all occurrences, scanning left to right without overlap. -/
def removeTriple (p1 p2 p3 : Char) : List Char → List Char
  | [] => []
  | [c] => [c]
  | [c1, c2] => [c1, c2]
  | c1 :: c2 :: c3 :: rest =>
    if c1 = p1 ∧ c2 = p2 ∧ c3 = p3 then removeTriple p1 p2 p3 rest
    else c1 :: removeTriple p1 p2 p3 (c2 :: c3 :: rest)

/-- The body of the `for email in emails` loop of `clean_emails`
(utils.py lines 129–132): split on `.`, lowercase the final segment and
delete the substrings `web` then `www` from it, rejoin. -/
def cleanOneEmail (email : String) : String :=
  let parts := splitDot email.data
  let cleaned := removeTriple 'w' 'w' 'w'
    (removeTriple 'w' 'e' 'b' (lowerL (parts.getLastD [])))
  String.mk (joinDot (parts.dropLast ++ [cleaned]))

/-- `clean_emails` (utils.py lines 110–134). -/
def clean_emails (emails : List String) : List String :=
  if emails = [] then [] else emails.map cleanOneEmail

/-- Python `\w` (for `\b` word boundaries), modelled on the ASCII
alphanumerics, `_`, and the Cyrillic block U+0400–U+04FF. -/
def isWordChar (c : Char) : Bool :=
  c.isAlphanum || c = '_' || (1024 ≤ c.toNat && c.toNat ≤ 1279)

/-- Does `\d{4}\b` match at this position (four digits, then end of string
or a non-word character)? -/
def fourDigitsHere (cs : List Char) : Bool :=
  match cs with
  | a :: b :: c :: d :: rest =>
    isDigitC a && isDigitC b && isDigitC c && isDigitC d &&
      (match rest with
       | [] => true
       | e :: _ => !isWordChar e)
  | _ => false

/-- Left-to-right scan for the first `\b\d{4}\b` match; the Boolean carries
whether the previous character was a word character (so `\b` holds exactly
when it is `false`). -/
def fbAux : Bool → List Char → Option String
  | _, [] => none
  | prevW, c :: rest =>
    if !prevW && fourDigitsHere (c :: rest) then
      some (String.mk (List.take 4 (c :: rest)))
    else fbAux (isWordChar c) rest

/-- `extract_postal_code_fallback` (utils.py lines 137–155): the first
`\b\d{4}\b` match in the text, if any. -/
def extract_postal_code_fallback (text : String) : Option String :=
  fbAux false text.data

/-- `re.fullmatch(r'\d{4}', v)` (utils.py line 174): exactly four decimal
digits. -/
def fullmatchFourDigits (cs : List Char) : Bool :=
  match cs with
  | [a, b, c, d] => isDigitC a && isDigitC b && isDigitC c && isDigitC d
  | _ => false

/-- `filter_postal_code` (utils.py lines 158–174). -/
def filter_postal_code (values : List String) : List String :=
  values.filter (fun v => fullmatchFourDigits v.data)

/-- `filter_street_address` (utils.py lines 177–193): keep the strings whose
lowercased form contains one of `str`, `blvd`, `bul.`. -/
def filter_street_address (values : List String) : List String :=
  values.filter (fun v =>
    (["str", "blvd", "bul."].any (fun w => hasSub w.data ((lowerStr v).data))))

/-- One recognizer match: a label description and the matched span
(main.py: elements of `model.predict_entities(...)`). -/
structure Entity where
  label : String
  text : String
deriving DecidableEq, Repr

/-- `label_map` (main.py lines 17–24), in source order. -/
def label_map : List (String × String) :=
  [("phone", "phone number like +359 2 439 81 50 or starting with +359"),
   ("site", "website address like www.bank.bg or www.domain.com"),
   ("street_address",
     "street address that contains street name and number like '16 Srebarna Str.'"),
   ("city", "city name in Bulgaria (e.g. Sofia, Plovdiv)"),
   ("country", "country name like Bulgaria"),
   ("postal_code", "numeric postal code")]

/-- `email_label` (main.py line 27). -/
def email_label : List (String × String) :=
  [("email", "email address with @ symbol, e.g. info@company.bg")]

/-- `reverse_map` (main.py line 30) as a lookup: description back to field
key.  The six descriptions are pairwise distinct, so the Python dict and
this `find?` agree. -/
def reverse_map (d : String) : Option String :=
  (label_map.find? (fun kv => kv.2 = d)).map (fun kv => kv.1)

/-- The candidate list `extracted[key]` built by the classification loop of
main.py lines 77–82: the spans of the matches whose label maps back to
`key`, in match order. -/
def extractedFor (ents : List Entity) (key : String) : List String :=
  (ents.filter (fun e => reverse_map e.label = some key)).map (fun e => e.text)

/-- A Company Record value: Python stores either a string or a list of
strings under each key. -/
inductive StrOrList where
  | s : String → StrOrList
  | l : List String → StrOrList
deriving DecidableEq, Repr

/-- `text.split(',')[0]` (main.py line 92): the prefix before the first
comma, or the whole string when it has none. -/
def firstSplitComma (t : String) : String :=
  String.mk ((t.data).takeWhile (fun c => c ≠ ','))

/-- Python `someList or "placeholder"`: the list if nonempty, else the
placeholder string. -/
def orPlaceholder (v : List String) (ph : String) : StrOrList :=
  if v = [] then StrOrList.s ph else StrOrList.l v

/-- Python `lst[0] if lst else "placeholder"`. -/
def firstOrPlaceholder (v : List String) (ph : String) : StrOrList :=
  match v with
  | a :: _ => StrOrList.s a
  | [] => StrOrList.s ph

/-- Python `x or "placeholder"` for `x : str | None` (main.py line 99):
`None` and the empty string are falsy. -/
def orStrPlaceholder (v : Option String) (ph : String) : String :=
  match v with
  | some s => if s = "" then ph else s
  | none => ph

/-- `extract_single_company_info` (main.py lines 36–100) with the two
recognizer invocations supplied as inputs (`email_ents` from the email
label, `ents` from the six-field label set).  The returned association
list is the dict literal of lines 91–100 in source order.  Every branch of
the source is total (all indexings are guarded), so this is a total
function: no exception is ever raised. -/
def extract_single_company_info (text : String) (email_ents ents : List Entity) :
    List (String × StrOrList) :=
  let extracted_emails := if email_ents = [] then [] else email_ents.map (fun e => e.text)
  let cleaned_phones := clean_phone_number (extractedFor ents ("phone"))
  let cleaned_emails := clean_emails extracted_emails
  let address_candidates := filter_street_address (extractedFor ents ("street_address"))
  let postal_candidates := filter_postal_code (extractedFor ents ("postal_code"))
  let postal_code : Option String :=
    match postal_candidates with
    | p :: _ => some p
    | [] => extract_postal_code_fallback text
  [("Сompany name", StrOrList.s (firstSplitComma text)),
   ("Phone numbers", orPlaceholder cleaned_phones ("No phones detected")),
   ("Emails", orPlaceholder cleaned_emails ("No emails detected")),
   ("Websites", orPlaceholder (extractedFor ents ("site")) ("No website detected")),
   ("Street address", firstOrPlaceholder address_candidates ("No street address detected")),
   ("City", firstOrPlaceholder (extractedFor ents ("city")) ("No city detected")),
   ("Country", firstOrPlaceholder (extractedFor ents ("country")) ("No country detected")),
   ("Postal code", StrOrList.s (orStrPlaceholder postal_code ("No postal code detected")))]

/-- Dict lookup on the association-list model of the Company Record. -/
def lookupField (key : String) (r : List (String × StrOrList)) : Option StrOrList :=
  (r.find? (fun kv => kv.1 = key)).map (fun kv => kv.2)

/-- Restates the claim that a normalized phone is the international form:
`+359` followed by 9 to 10 decimal digits (spec 4.3 output contract). -/
def specIntlForm (s : String) : Bool :=
  startsL (("+359").data) s.data &&
    ((s.data.drop 4).all isDigitC &&
      ((s.data.drop 4).length = 9 || (s.data.drop 4).length = 10))

/-- Restates the spec's postal filter predicate: a string consisting of
exactly four decimal digits (spec 4.5). -/
def specFourDigitString (v : String) : Bool :=
  v.data.length = 4 && v.data.all isDigitC

/-- Restates the spec's street filter predicate: the lowercased string
contains `str`, `blvd` or `bul.` as a substring (spec 4.6). -/
def specStreetMarker (v : String) : Bool :=
  hasSub (("str").data) ((lowerStr v).data) ||
    hasSub (("blvd").data) ((lowerStr v).data) ||
    hasSub (("bul.").data) ((lowerStr v).data)

/-- The final dot-separated segment of an email string. -/
def lastSegOf (e : String) : String :=
  String.mk ((splitDot e.data).getLastD [])

/-- `fullmatch(r'\d{4}', ·)` is the predicate "exactly four decimal
digits". -/
theorem fullmatchFourDigits_eq (cs : List Char) :
    fullmatchFourDigits cs = (decide (cs.length = 4) && cs.all isDigitC) := by
  rcases cs with _ | ⟨a, _ | ⟨b, _ | ⟨c, _ | ⟨d, _ | ⟨e, rest⟩⟩⟩⟩⟩ <;>
    simp [fullmatchFourDigits, Bool.and_assoc]

/-- C1: the email normalizer, run on the two docstring inputs, returns both
unchanged: the `web` / `www` fragments sit in a non-final dot-segment,
which `clean_emails` never touches, so the documented outputs
`info@company.bg` / `contact@domain.com` are not produced. -/
theorem C1_clean_emails_docstring_divergence :
    clean_emails ["info@company.web.bg"] = ["info@company.web.bg"] ∧
      clean_emails ["contact@www.domain.com"] = ["contact@www.domain.com"] ∧
      clean_emails ["info@company.web.bg"] ≠ ["info@company.bg"] := by
  decide

/-- C2: on `["+359 2 962 53 96", "тел.: 032 632 111"]` the phone normalizer
returns exactly one entry, not the two its docstring promises: the second
candidate is truncated at the leading marker `тел`, leaving the empty
string, which is discarded. -/
theorem C2_clean_phone_number_docstring_divergence :
    clean_phone_number ["+359 2 962 53 96", "тел.: 032 632 111"] =
      ["+35929625396"] := by
  decide

/-- C3, counterexample: a surviving candidate need not be `+359` followed
by 9–10 digits — `+4420123456789` passes every step of the normalizer
untouched and is emitted as is. -/
theorem C3_counterexample :
    "+4420123456789" ∈ clean_phone_number ["+4420123456789"] ∧
      specIntlForm ("+4420123456789") = false := by
  decide

/-- C4, counterexample: the phone normalizer is not idempotent, even up to
set semantics: `+35900123456` is cleaned to `+3590123456`, which a second
run shortens again to `+359123456`; likewise the email normalizer, where
deleting `web` from `wwebeb` splices a fresh `web` into the final segment
that the second run then deletes. -/
theorem C4_counterexample :
    ("+3590123456" ∈ clean_phone_number ["+35900123456"] ∧
      "+3590123456" ∉ clean_phone_number (clean_phone_number ["+35900123456"])) ∧
      clean_emails (clean_emails ["a@b.wwebeb"]) ≠ clean_emails ["a@b.wwebeb"] := by
  decide

/-- C7: the postal filter keeps exactly the strings made of exactly four
decimal digits, and in particular passes the spec's two examples. -/
theorem C7_filter_postal_code_exact :
    (∀ values : List String,
      filter_postal_code values = values.filter (fun v => specFourDigitString v)) ∧
      filter_postal_code ["1000", "Sofia", "12", "9000"] = ["1000", "9000"] ∧
      filter_postal_code ["12345"] = [] := by
  refine ⟨fun values => ?_, by decide, by decide⟩
  apply List.filter_congr
  intro v _
  rw [fullmatchFourDigits_eq]
  rfl

/-- C8: the email normalizer maps each input to its cleaned form in place:
the output has the same length and order as the input, nothing is
deduplicated or discarded. -/
theorem C8_clean_emails_length_order (emails : List String) :
    clean_emails emails = emails.map cleanOneEmail ∧
      (clean_emails emails).length = emails.length := by
  have h : clean_emails emails = emails.map cleanOneEmail := by
    cases emails with
    | nil => rfl
    | cons e rest => simp [clean_emails]
  exact ⟨h, by rw [h, List.length_map]⟩

/-- C9: the street filter keeps exactly the strings whose lowercased form
contains `str`, `blvd` or `bul.` as a substring, and in particular passes
the spec's example. -/
theorem C9_filter_street_address_exact :
    (∀ values : List String,
      filter_street_address values = values.filter (fun v => specStreetMarker v)) ∧
      filter_street_address ["12 Main Str.", "Sofia", "5 Sea blvd", "1000"] =
        ["12 Main Str.", "5 Sea blvd"] := by
  refine ⟨fun values => ?_, by decide⟩
  apply List.filter_congr
  intro v _
  simp [specStreetMarker, List.any, Bool.or_assoc]

/-- Every string the postal filter keeps is nonempty (it has exactly four
characters), so it is never confused with Python's falsy empty string. -/
theorem filter_postal_mem_ne_empty (v : String) (values : List String)
    (h : v ∈ filter_postal_code values) : v ≠ "" := by
  intro he
  subst he
  have hf := (List.mem_filter.mp h).2
  simp [fullmatchFourDigits] at hf

/-- A successful postal-code fallback scan returns a nonempty string (its
four matched digits). -/
theorem fbAux_some_ne_empty (b : Bool) (cs : List Char) (s : String)
    (h : fbAux b cs = some s) : s ≠ "" := by
  induction cs generalizing b with
  | nil => simp [fbAux] at h
  | cons c rest ih =>
    rw [fbAux] at h
    split at h
    · have hs : s = String.mk (List.take 4 (c :: rest)) := by
        exact (Option.some.injEq _ _ ▸ h).symm
      subst hs
      intro he
      have : (String.mk (List.take 4 (c :: rest))).data = [] := congrArg String.data he
      simp at this
    · exact ih _ h

/-- C5: the record builder is a total function of the row text and the two
recognizer outputs (no branch can raise), its record lists exactly the
eight fixed keys in source order, and each key is bound to either the
field's extracted (normalized) value or that field's placeholder string —
`orPlaceholder`, `firstOrPlaceholder` and `orStrPlaceholder` resolve, by
definition, to the value when one is present and to the placeholder
otherwise. -/
theorem C5_record_builder_all_fields (text : String) (email_ents ents : List Entity) :
    (extract_single_company_info text email_ents ents).map Prod.fst =
      ["Сompany name", "Phone numbers", "Emails", "Websites", "Street address",
        "City", "Country", "Postal code"] ∧
      lookupField ("Сompany name") (extract_single_company_info text email_ents ents) =
        some (StrOrList.s (firstSplitComma text)) ∧
      lookupField ("Phone numbers") (extract_single_company_info text email_ents ents) =
        some (orPlaceholder (clean_phone_number (extractedFor ents ("phone")))
          ("No phones detected")) ∧
      lookupField ("Emails") (extract_single_company_info text email_ents ents) =
        some (orPlaceholder
          (clean_emails (if email_ents = [] then [] else email_ents.map (fun e => e.text)))
          ("No emails detected")) ∧
      lookupField ("Websites") (extract_single_company_info text email_ents ents) =
        some (orPlaceholder (extractedFor ents ("site")) ("No website detected")) ∧
      lookupField ("Street address") (extract_single_company_info text email_ents ents) =
        some (firstOrPlaceholder (filter_street_address (extractedFor ents ("street_address")))
          ("No street address detected")) ∧
      lookupField ("City") (extract_single_company_info text email_ents ents) =
        some (firstOrPlaceholder (extractedFor ents ("city")) ("No city detected")) ∧
      lookupField ("Country") (extract_single_company_info text email_ents ents) =
        some (firstOrPlaceholder (extractedFor ents ("country")) ("No country detected")) ∧
      lookupField ("Postal code") (extract_single_company_info text email_ents ents) =
        some (StrOrList.s (orStrPlaceholder
          (match filter_postal_code (extractedFor ents ("postal_code")) with
           | p :: _ => some p
           | [] => extract_postal_code_fallback text)
          ("No postal code detected"))) := by
  exact ⟨rfl, rfl, rfl, rfl, rfl, rfl, rfl, rfl, rfl⟩

/-- C6: the record's postal-code field is the first candidate surviving the
four-digit filter when that list is nonempty; otherwise the first
standalone four-digit run of the full row text; otherwise the placeholder.
The fallback value is consulted only in the empty-filter branch. -/
theorem C6_postal_code_field (text : String) (email_ents ents : List Entity) :
    lookupField ("Postal code") (extract_single_company_info text email_ents ents) =
      some (StrOrList.s
        (match filter_postal_code (extractedFor ents ("postal_code")) with
         | p :: _ => p
         | [] =>
           match extract_postal_code_fallback text with
           | some f => f
           | none => "No postal code detected")) := by
  have base : lookupField ("Postal code") (extract_single_company_info text email_ents ents) =
      some (StrOrList.s (orStrPlaceholder
        (match filter_postal_code (extractedFor ents ("postal_code")) with
         | p :: _ => some p
         | [] => extract_postal_code_fallback text)
        ("No postal code detected"))) := rfl
  rw [base]
  cases hpc : filter_postal_code (extractedFor ents ("postal_code")) with
  | cons p rest =>
    have hne : p ≠ "" :=
      filter_postal_mem_ne_empty p _ (hpc ▸ List.mem_cons_self p rest)
    simp [orStrPlaceholder, hne]
  | nil =>
    cases hfb : extract_postal_code_fallback text with
    | some f =>
      have hne : f ≠ "" := fbAux_some_ne_empty false text.data f hfb
      simp [orStrPlaceholder, hne]
    | none => simp [orStrPlaceholder]

/-- After `re.sub(r'[^\d+]', '', ·)` every remaining character is a digit
or `+`. -/
theorem keepDigitPlus_mem (cs : List Char) :
    ∀ c ∈ keepDigitPlus cs, isDigitC c = true ∨ c = '+' := by
  intro c hc
  have h := (List.mem_filter.mp hc).2
  simp at h
  exact h

/-- `+` does not survive the `(· ≠ '+')` filter. -/
theorem plus_not_mem_filter (cs : List Char) :
    '+' ∉ cs.filter (fun c => c ≠ '+') := by
  intro h
  have := (List.mem_filter.mp h).2
  simp at this

/-- The `+`-collapse step leaves at most one `+`. -/
theorem collapsePlus_count_le (cs : List Char) (h : cs.count '+' ≤ 1) :
    (collapsePlus cs).count '+' ≤ 1 := by
  unfold collapsePlus
  split
  · have h0 : (cs.filter (fun c => c ≠ '+')).count '+' = 0 :=
      List.count_eq_zero.mpr (plus_not_mem_filter cs)
    rw [List.count_cons, h0]
    simp
  · exact h

/-- The `+`-collapse step, applied after the digit-or-`+` filter, preserves
the digit-or-`+` character invariant. -/
theorem collapsePlus_mem (cs : List Char)
    (hP : ∀ c ∈ cs, isDigitC c = true ∨ c = '+') :
    ∀ c ∈ collapsePlus cs, isDigitC c = true ∨ c = '+' := by
  unfold collapsePlus
  split
  · intro c hc
    rcases List.mem_cons.mp hc with he | hm
    · exact Or.inr he
    · exact hP c (List.mem_filter.mp hm).1
  · exact hP

/-- When the collapse step fires (more than one `+`), the result has count
exactly one; otherwise the count is unchanged — either way the count after
the collapse is at most one whenever it was positive before, and is
exactly the branch structure of utils.py lines 90–91.  What the later
steps actually need: after the collapse the count is `≤ 1` or the list
starts with `+` followed by `+`-free characters; this lemma gives the
count bound for the fired branch. -/
theorem collapsePlus_count_fired (cs : List Char) (h : 1 < cs.count '+') :
    (collapsePlus cs).count '+' = 1 := by
  unfold collapsePlus
  rw [if_pos h]
  have h0 : (cs.filter (fun c => c ≠ '+')).count '+' = 0 :=
    List.count_eq_zero.mpr (plus_not_mem_filter cs)
  rw [List.count_cons, h0]
  simp

/-- A list of digit characters contains no `+`. -/
theorem count_plus_eq_zero_of_all_digit (cs : List Char)
    (h : cs.all isDigitC = true) : cs.count '+' = 0 := by
  refine List.count_eq_zero.mpr (fun hm => ?_)
  have := List.all_eq_true.mp h '+' hm
  simp [isDigitC] at this

/-- Digit-or-`+` characters with no `+` occurrence are all digits. -/
theorem all_digit_of_count_zero (cs : List Char)
    (hP : ∀ c ∈ cs, isDigitC c = true ∨ c = '+')
    (hc : cs.count '+' = 0) : cs.all isDigitC = true := by
  rw [List.all_eq_true]
  intro c hm
  rcases hP c hm with hd | he
  · exact hd
  · subst he
    exact absurd hm (List.count_eq_zero.mp hc)

/-- The country-code step, fed a digit-or-`+` list with at most one `+`:
whenever its result starts with `+`, the rest of the result is all digits
and the result contains exactly one `+`. -/
theorem fixCountryCode_form (cs : List Char)
    (hcnt : cs.count '+' ≤ 1)
    (hP : ∀ c ∈ cs, isDigitC c = true ∨ c = '+') :
    (fixCountryCode cs).head? = some '+' →
      (fixCountryCode cs).tail.all isDigitC = true ∧
        (fixCountryCode cs).count '+' = 1 := by
  unfold fixCountryCode
  split
  · next hsl =>
    rcases cs with _ | ⟨c1, _ | ⟨c2, _ | ⟨c3, _ | ⟨c4, _ | ⟨c5, rest⟩⟩⟩⟩⟩ <;>
      simp [startsL] at hsl
    obtain ⟨e1, e2, e3, e4, e5⟩ := hsl
    subst e1; subst e2; subst e3; subst e4; subst e5
    intro _
    have hrest0 : rest.count '+' = 0 := by
      have : ('+' :: '3' :: '5' :: '9' :: '0' :: rest).count '+' = rest.count '+' + 1 := by
        simp [List.count_cons]
      omega
    have hdig : rest.all isDigitC = true :=
      all_digit_of_count_zero rest (fun c hc => hP c (by simp [hc])) hrest0
    constructor
    · simp [List.all_eq_true]
      exact ⟨by decide, by decide, by decide, fun c hc => List.all_eq_true.mp hdig c hc⟩
    · simp [List.count_cons, hrest0]
  · split
    · next hnsl hlf =>
      rcases cs with _ | ⟨c1, rest⟩
      · simp [isLocalForm] at hlf
      · simp only [isLocalForm, Bool.and_eq_true] at hlf
        obtain ⟨he, hdig, _⟩ := hlf
        have he' : c1 = '0' := by simpa using he
        intro _
        have hrest0 : rest.count '+' = 0 := count_plus_eq_zero_of_all_digit rest hdig
        constructor
        · simp [List.all_eq_true]
          exact ⟨by decide, by decide, by decide, fun c hc => List.all_eq_true.mp hdig c hc⟩
        · simp [List.count_cons, hrest0]
    · intro hhead
      rcases cs with _ | ⟨c1, rest⟩
      · simp at hhead
      · have he : c1 = '+' := by simpa using hhead
        subst he
        have hrest0 : rest.count '+' = 0 := by
          have : ('+' :: rest).count '+' = rest.count '+' + 1 := by
            simp [List.count_cons]
          omega
        exact ⟨all_digit_of_count_zero rest (fun c hc => hP c (by simp [hc])) hrest0,
          by simp [List.count_cons, hrest0]⟩

/-- Every phone the loop body emits starts with `+`, continues with digits
only, has length at least 10, and contains exactly one `+`. -/
theorem processPhone_form (p s : String) (h : processPhone p = some s) :
    s.data.head? = some '+' ∧ s.data.tail.all isDigitC = true ∧
      10 ≤ s.data.length ∧ s.data.count '+' = 1 := by
  unfold processPhone at h
  split at h
  · exact absurd h (by simp)
  · next hg =>
    push_neg at hg
    obtain ⟨hlen, hhead⟩ := hg
    have hs : s.data = phonePipeline p := by
      have := (Option.some.injEq _ _ ▸ h)
      exact congrArg String.data this.symm
    have hP := keepDigitPlus_mem (truncMarkers (trimChars
      ((p.data).map (fun c => if c = ' ' then ' ' else c))))
    set base := keepDigitPlus (truncMarkers (trimChars
      ((p.data).map (fun c => if c = ' ' then ' ' else c)))) with hbase
    have hcnt : (collapsePlus base).count '+' ≤ 1 := by
      by_cases hgt : 1 < base.count '+'
      · exact le_of_eq (collapsePlus_count_fired base hgt)
      · have : collapsePlus base = base := by unfold collapsePlus; rw [if_neg hgt]
        rw [this]; omega
    have hPc : ∀ c ∈ collapsePlus base, isDigitC c = true ∨ c = '+' :=
      collapsePlus_mem base hP
    have hform := fixCountryCode_form (collapsePlus base) hcnt hPc
    have hpp : phonePipeline p = fixCountryCode (collapsePlus base) := rfl
    rw [hs, hpp]
    rw [hpp] at hhead hlen
    obtain ⟨ha, hb⟩ := hform hhead
    exact ⟨hhead, ha, by omega, hb⟩

/-- Every member of the phone normalizer's output comes from some input
candidate that the loop body accepted. -/
theorem clean_phone_number_mem (s : String) (phones : List String)
    (h : s ∈ clean_phone_number phones) :
    ∃ p, p ∈ phones ∧ processPhone p = some s := by
  unfold clean_phone_number at h
  split at h
  · exact absurd h (List.not_mem_nil s)
  · exact List.mem_filterMap.mp (List.mem_dedup.mp h)

/-- The phone normalizer's output never contains duplicates
(`list(set(...))`). -/
theorem clean_phone_number_nodup (phones : List String) :
    (clean_phone_number phones).Nodup := by
  unfold clean_phone_number
  split
  · exact List.nodup_nil
  · exact List.nodup_dedup _

/-- C3, amended: every string the phone normalizer emits starts with `+`,
continues with decimal digits only, and has length at least 10 (at least
9 digits; the code enforces no `+359` prefix and no upper bound on the
digit count), and the output list is deduplicated. -/
theorem C3_amended_phone_output_form (phones : List String) :
    (∀ s ∈ clean_phone_number phones,
      s.data.head? = some '+' ∧ s.data.tail.all isDigitC = true ∧ 10 ≤ s.length) ∧
      (clean_phone_number phones).Nodup := by
  refine ⟨fun s hs => ?_, clean_phone_number_nodup phones⟩
  obtain ⟨p, _, hp⟩ := clean_phone_number_mem s phones hs
  obtain ⟨h1, h2, h3, _⟩ := processPhone_form p s hp
  exact ⟨h1, h2, h3⟩

/-- Witness for the amended C3 at the docstring input `02/987 02 35`,
whose normalized form is `+35929870235`. -/
theorem C3_amended_witness :
    (("+35929870235").data.head? = some '+' ∧
      ("+35929870235").data.tail.all isDigitC = true ∧
      10 ≤ ("+35929870235").length) ∧
      (clean_phone_number ["02/987 02 35"]).Nodup :=
  ⟨(C3_amended_phone_output_form ["02/987 02 35"]).1 ("+35929870235") (by decide),
    (C3_amended_phone_output_form ["02/987 02 35"]).2⟩

/-- C10: every string the phone normalizer emits contains exactly one `+`,
at position 0, followed only by decimal digits, with total length at least
10, and the output list contains no duplicates. -/
theorem C10_phone_output_shape (phones : List String) :
    (∀ s ∈ clean_phone_number phones,
      s.data.count '+' = 1 ∧ s.data.head? = some '+' ∧
        s.data.tail.all isDigitC = true ∧ 10 ≤ s.length) ∧
      (clean_phone_number phones).Nodup := by
  refine ⟨fun s hs => ?_, clean_phone_number_nodup phones⟩
  obtain ⟨p, _, hp⟩ := clean_phone_number_mem s phones hs
  obtain ⟨h1, h2, h3, h4⟩ := processPhone_form p s hp
  exact ⟨h4, h1, h2, h3⟩

/-- Witness for C10 at the docstring input `0897 889 493`, whose
normalized form is `+359897889493`. -/
theorem C10_witness :
    (("+359897889493").data.count '+' = 1 ∧
      ("+359897889493").data.head? = some '+' ∧
      ("+359897889493").data.tail.all isDigitC = true ∧
      10 ≤ ("+359897889493").length) ∧
      (clean_phone_number ["0897 889 493"]).Nodup :=
  ⟨(C10_phone_output_shape ["0897 889 493"]).1 ("+359897889493") (by decide),
    (C10_phone_output_shape ["0897 889 493"]).2⟩

/-- `Char.ofNat` round-trips through `toNat` below the surrogate range. -/
theorem charOfNat_toNat {n : Nat} (h : n < 55296) : (Char.ofNat n).toNat = n := by
  rw [Char.ofNat, dif_pos (Or.inl h)]
  rfl

/-- Case folding is idempotent: a folded character folds to itself. -/
theorem lowerChar_idem (c : Char) : lowerChar (lowerChar c) = lowerChar c := by
  unfold lowerChar
  split
  · next h =>
    have e : (Char.ofNat (c.toNat + 32)).toNat = c.toNat + 32 := charOfNat_toNat (by omega)
    rw [if_neg (by omega), if_neg (by omega), if_neg (by omega)]
  · split
    · next h h2 =>
      have e : (Char.ofNat (c.toNat + 32)).toNat = c.toNat + 32 := charOfNat_toNat (by omega)
      rw [if_neg (by omega), if_neg (by omega), if_neg (by omega)]
    · split
      · next h h2 h3 =>
        have e : (Char.ofNat (1105)).toNat = 1105 := charOfNat_toNat (by omega)
        rw [if_neg (by omega), if_neg (by omega), if_neg (by omega)]
      · rfl

/-- Case folding never produces a dot from a non-dot character. -/
theorem lowerChar_ne_dot {c : Char} (h : c ≠ '.') : lowerChar c ≠ '.' := by
  unfold lowerChar
  split
  · next h1 =>
    intro e
    have he := congrArg Char.toNat e
    rw [charOfNat_toNat (by omega)] at he
    have : c.toNat + 32 = 46 := he
    omega
  · split
    · next h1 h2 =>
      intro e
      have he := congrArg Char.toNat e
      rw [charOfNat_toNat (by omega)] at he
      have : c.toNat + 32 = 46 := he
      omega
    · split
      · next h1 h2 h3 =>
        intro e
        have he := congrArg Char.toNat e
        rw [charOfNat_toNat (by omega)] at he
        have : (1105 : Nat) = 46 := he
        omega
      · exact h

/-- A digit-or-`+` character has code point at most 57. -/
theorem digitPlus_le (c : Char) (h : isDigitC c = true ∨ c = '+') : c.toNat ≤ 57 := by
  rcases h with hd | he
  · simp [isDigitC] at hd
    omega
  · subst he
    decide

/-- A digit-or-`+` character has code point at least 43. -/
theorem digitPlus_ge (c : Char) (h : isDigitC c = true ∨ c = '+') : 43 ≤ c.toNat := by
  rcases h with hd | he
  · simp [isDigitC] at hd
    omega
  · subst he
    decide

/-- A character with code point at most 57 folds to itself. -/
theorem lowerChar_eq_self_of_le (c : Char) (h : c.toNat ≤ 57) : lowerChar c = c := by
  unfold lowerChar
  rw [if_neg (by omega), if_neg (by omega), if_neg (by omega)]

/-- No Python-whitespace character has code point 43 or above (space is 32,
the control whitespace is below 14), so digit-or-`+` strings strip to
themselves. -/
theorem isSpaceC_false_of_ge (c : Char) (h : 43 ≤ c.toNat) : isSpaceC c = false := by
  have e1 : c ≠ ' ' := fun e => by subst e; exact absurd h (by decide)
  have e2 : c ≠ '\t' := fun e => by subst e; exact absurd h (by decide)
  have e3 : c ≠ '\n' := fun e => by subst e; exact absurd h (by decide)
  have e4 : c ≠ '\r' := fun e => by subst e; exact absurd h (by decide)
  have e5 : c ≠ '\x0b' := fun e => by subst e; exact absurd h (by decide)
  have e6 : c ≠ '\x0c' := fun e => by subst e; exact absurd h (by decide)
  simp [isSpaceC, e1, e2, e3, e4, e5, e6]

/-- A character with code point at most 57 is not the non-breaking space
(U+00A0). -/
theorem ne_nbsp_of_le (c : Char) (h : c.toNat ≤ 57) : c ≠ ' ' :=
  fun e => by subst e; exact absurd h (by decide)

/-- The non-breaking-space substitution is the identity on strings without
U+00A0. -/
theorem map_nbsp_id (cs : List Char) (h : ∀ c ∈ cs, c ≠ ' ') :
    cs.map (fun c => if c = ' ' then ' ' else c) = cs := by
  induction cs with
  | nil => rfl
  | cons c rest ih =>
    rw [List.map_cons, if_neg (h c (List.mem_cons_self c rest)),
      ih (fun x hx => h x (List.mem_cons_of_mem c hx))]

/-- `dropWhile` is the identity when the predicate fails on every element. -/
theorem dropWhile_id_of_all (p : Char → Bool) (cs : List Char)
    (h : ∀ c ∈ cs, p c = false) : cs.dropWhile p = cs := by
  cases cs with
  | nil => rfl
  | cons c rest =>
    rw [List.dropWhile_cons, if_neg (by simp [h c (List.mem_cons_self c rest)])]

/-- Stripping is the identity on whitespace-free strings. -/
theorem trimChars_id (cs : List Char) (h : ∀ c ∈ cs, isSpaceC c = false) :
    trimChars cs = cs := by
  unfold trimChars
  rw [dropWhile_id_of_all _ cs h,
    dropWhile_id_of_all _ cs.reverse (fun c hc => h c (List.mem_reverse.mp hc)),
    List.reverse_reverse]

/-- A marker cannot start at a digit-or-`+` character: every marker starts
with a letter whose code point exceeds 57. -/
theorem startsCI_head_ne (t c : Char) (ts rest : List Char) (hne : t ≠ lowerChar c) :
    startsCI (t :: ts) (c :: rest) = false := by
  simp [startsCI, hne]

/-- No truncation marker matches at the head of a digit-or-`+` string. -/
theorem markerAt_false_of_digitPlus (c : Char) (rest : List Char)
    (h : isDigitC c = true ∨ c = '+') : markerAt (c :: rest) = false := by
  have hle : c.toNat ≤ 57 := digitPlus_le c h
  have hl : lowerChar c = c := lowerChar_eq_self_of_le c hle
  have ne1 : ('f' : Char) ≠ lowerChar c := by
    rw [hl]; intro e; rw [← e] at hle; exact absurd hle (by decide)
  have ne2 : ('e' : Char) ≠ lowerChar c := by
    rw [hl]; intro e; rw [← e] at hle; exact absurd hle (by decide)
  have ne3 : ('ф' : Char) ≠ lowerChar c := by
    rw [hl]; intro e; rw [← e] at hle; exact absurd hle (by decide)
  have ne4 : ('т' : Char) ≠ lowerChar c := by
    rw [hl]; intro e; rw [← e] at hle; exact absurd hle (by decide)
  unfold markerAt
  rw [show ("fax").data = 'f' :: ("ax").data from rfl,
    show ("email").data = 'e' :: ("mail").data from rfl,
    show ("e-mail").data = 'e' :: ("-mail").data from rfl,
    show ("факс").data = 'ф' :: ("акс").data from rfl,
    show ("тел").data = 'т' :: ("ел").data from rfl,
    startsCI_head_ne _ _ _ _ ne1, startsCI_head_ne _ _ _ _ ne2,
    startsCI_head_ne _ _ _ _ ne2, startsCI_head_ne _ _ _ _ ne3,
    startsCI_head_ne _ _ _ _ ne4]
  rfl

/-- Marker truncation is the identity on digit-or-`+` strings. -/
theorem truncMarkers_id (cs : List Char)
    (hP : ∀ c ∈ cs, isDigitC c = true ∨ c = '+') : truncMarkers cs = cs := by
  induction cs with
  | nil => rfl
  | cons c rest ih =>
    have hm := markerAt_false_of_digitPlus c rest (hP c (List.mem_cons_self c rest))
    simp only [truncMarkers, hm, Bool.false_eq_true, if_false]
    rw [ih (fun x hx => hP x (List.mem_cons_of_mem c hx))]

/-- The digit-or-`+` filter is the identity on digit-or-`+` strings. -/
theorem keepDigitPlus_id (cs : List Char)
    (hP : ∀ c ∈ cs, isDigitC c = true ∨ c = '+') : keepDigitPlus cs = cs := by
  refine List.filter_eq_self.mpr (fun a ha => ?_)
  rcases hP a ha with hd | he
  · simp [hd]
  · simp [he]

/-- The `+`-collapse step is the identity when at most one `+` is present. -/
theorem collapsePlus_id (cs : List Char) (h : cs.count '+' ≤ 1) :
    collapsePlus cs = cs := by
  unfold collapsePlus
  rw [if_neg (by omega)]

/-- The country-code step is the identity when neither rewrite fires. -/
theorem fixCountryCode_id (cs : List Char)
    (h1 : startsL (("+3590").data) cs = false) (h2 : isLocalForm cs = false) :
    fixCountryCode cs = cs := by
  simp only [fixCountryCode, h1, h2, Bool.false_eq_true, if_false]

/-- An emitted phone that does not still start with `+3590` is a fixed
point of the loop body. -/
theorem processPhone_fixed (s : String)
    (hh : s.data.head? = some '+') (ht : s.data.tail.all isDigitC = true)
    (hlen : 10 ≤ s.data.length) (hcnt : s.data.count '+' = 1)
    (hns : startsL (("+3590").data) s.data = false) :
    processPhone s = some s := by
  obtain ⟨t, hst⟩ : ∃ t, s.data = '+' :: t := by
    cases hsd : s.data with
    | nil => rw [hsd] at hh; exact absurd hh (by simp)
    | cons c t =>
      rw [hsd] at hh
      simp at hh
      exact ⟨t, by rw [hh]⟩
  have hP : ∀ c ∈ s.data, isDigitC c = true ∨ c = '+' := by
    intro c hc
    rw [hst] at hc ht
    simp only [List.tail_cons] at ht
    rcases List.mem_cons.mp hc with he | hm
    · exact Or.inr he
    · exact Or.inl (List.all_eq_true.mp ht c hm)
  have hmap : (s.data).map (fun c => if c = ' ' then ' ' else c) = s.data :=
    map_nbsp_id _ (fun c hc => ne_nbsp_of_le c (digitPlus_le c (hP c hc)))
  have htrim : trimChars s.data = s.data :=
    trimChars_id _ (fun c hc => isSpaceC_false_of_ge c (digitPlus_ge c (hP c hc)))
  have htrunc : truncMarkers s.data = s.data := truncMarkers_id _ hP
  have hkeep : keepDigitPlus s.data = s.data := keepDigitPlus_id _ hP
  have hcol : collapsePlus s.data = s.data := collapsePlus_id _ (by omega)
  have hlocal : isLocalForm s.data = false := by
    rw [hst]
    simp [isLocalForm]
  have hfix : fixCountryCode s.data = s.data := fixCountryCode_id _ hns hlocal
  have hpp : phonePipeline s = s.data := by
    unfold phonePipeline
    rw [hmap, htrim, htrunc, hkeep, hcol, hfix]
  unfold processPhone
  rw [hpp, if_neg (by push_neg; exact ⟨by omega, hh⟩)]

/-- `map` is the identity on a list all of whose elements are fixed. -/
theorem map_id_on {α : Type} (f : α → α) (l : List α) (h : ∀ x ∈ l, f x = x) :
    l.map f = l := by
  induction l with
  | nil => rfl
  | cons a rest ih =>
    rw [List.map_cons, h a (List.mem_cons_self a rest),
      ih (fun x hx => h x (List.mem_cons_of_mem a hx))]

/-- `filterMap` keeps a list unchanged when every element maps to itself. -/
theorem filterMap_id_on {α : Type} (f : α → Option α) (l : List α)
    (h : ∀ x ∈ l, f x = some x) : l.filterMap f = l := by
  induction l with
  | nil => rfl
  | cons a rest ih =>
    rw [List.filterMap_cons_some (h a (List.mem_cons_self a rest)),
      ih (fun x hx => h x (List.mem_cons_of_mem a hx))]

/-- `clean_phone_number` on a nonempty input, unfolded. -/
theorem clean_phone_number_ne_nil (l : List String) (h : l ≠ []) :
    clean_phone_number l = (l.filterMap processPhone).dedup := by
  unfold clean_phone_number
  rw [if_neg h]

/-- The phone normalizer is a fixed point on its own output as long as no
emitted number still starts with `+3590`. -/
theorem clean_phone_number_fixed (phones : List String)
    (hns : ∀ s ∈ clean_phone_number phones, startsL (("+3590").data) s.data = false) :
    clean_phone_number (clean_phone_number phones) = clean_phone_number phones := by
  by_cases hnil : clean_phone_number phones = []
  · rw [hnil]
    rfl
  · have hfix : ∀ s ∈ clean_phone_number phones, processPhone s = some s := by
      intro s hs
      obtain ⟨p, _, hp⟩ := clean_phone_number_mem s phones hs
      obtain ⟨h1, h2, h3, h4⟩ := processPhone_form p s hp
      exact processPhone_fixed s h1 h2 h3 h4 (hns s hs)
    rw [clean_phone_number_ne_nil _ hnil, filterMap_id_on _ _ hfix,
      List.dedup_eq_self.mpr (clean_phone_number_nodup phones)]

/-- Splitting on `.` always yields at least one part (Python semantics). -/
theorem splitDot_ne_nil (cs : List Char) : splitDot cs ≠ [] := by
  induction cs with
  | nil => simp [splitDot]
  | cons c rest ih =>
    by_cases h : c = '.'
    · simp [splitDot, h]
    · cases hsr : splitDot rest with
      | nil => exact absurd hsr ih
      | cons p ps => simp [splitDot, h, hsr]

/-- No part produced by splitting on `.` contains a `.`. -/
theorem splitDot_parts_no_dot (cs : List Char) : ∀ p ∈ splitDot cs, '.' ∉ p := by
  induction cs with
  | nil =>
    intro p hp
    simp [splitDot] at hp
    subst hp
    simp
  | cons c rest ih =>
    intro p hp
    by_cases h : c = '.'
    · rw [show splitDot (c :: rest) = [] :: splitDot rest from by simp [splitDot, h]] at hp
      rcases List.mem_cons.mp hp with he | hm
      · subst he
        simp
      · exact ih p hm
    · cases hsr : splitDot rest with
      | nil => exact absurd hsr (splitDot_ne_nil rest)
      | cons q qs =>
        rw [show splitDot (c :: rest) = (c :: q) :: qs from by simp [splitDot, h, hsr]] at hp
        rcases List.mem_cons.mp hp with he | hm
        · subst he
          intro hd
          rcases List.mem_cons.mp hd with he2 | hm2
          · exact h he2.symm
          · exact ih q (by rw [hsr]; exact List.mem_cons_self q qs) hm2
        · exact ih p (by rw [hsr]; exact List.mem_cons_of_mem q hm)

/-- Splitting a dot-free string yields that single part. -/
theorem splitDot_no_dot (p : List Char) (h : '.' ∉ p) : splitDot p = [p] := by
  induction p with
  | nil => rfl
  | cons c rest ih =>
    have hc : c ≠ '.' := fun e => h (List.mem_cons.mpr (Or.inl e.symm))
    have hrest : '.' ∉ rest := fun hm => h (List.mem_cons_of_mem c hm)
    cases hsr : splitDot rest with
    | nil => exact absurd hsr (splitDot_ne_nil rest)
    | cons q qs =>
      have heq : splitDot (c :: rest) = (c :: q) :: qs := by simp [splitDot, hc, hsr]
      rw [ih hrest] at hsr
      injection hsr with e1 e2
      subst e1
      subst e2
      exact heq

/-- Splitting a dot-free prefix followed by `.` continues after the dot. -/
theorem splitDot_append_dot (p : List Char) (h : '.' ∉ p) (X : List Char) :
    splitDot (p ++ '.' :: X) = p :: splitDot X := by
  induction p with
  | nil => simp [splitDot]
  | cons c rest ih =>
    have hc : c ≠ '.' := fun e => h (List.mem_cons.mpr (Or.inl e.symm))
    have hrest : '.' ∉ rest := fun hm => h (List.mem_cons_of_mem c hm)
    have hr := ih hrest
    cases hsr : splitDot (rest ++ '.' :: X) with
    | nil => exact absurd hsr (splitDot_ne_nil _)
    | cons q qs =>
      have heq : splitDot (c :: (rest ++ '.' :: X)) = (c :: q) :: qs := by
        simp [splitDot, hc, hsr]
      rw [hr] at hsr
      injection hsr with e1 e2
      subst e1
      subst e2
      rw [List.cons_append]
      exact heq

/-- Splitting after joining recovers the parts when each part is dot-free. -/
theorem splitDot_joinDot (parts : List (List Char)) (hne : parts ≠ [])
    (hnd : ∀ p ∈ parts, '.' ∉ p) : splitDot (joinDot parts) = parts := by
  induction parts with
  | nil => contradiction
  | cons p ps ih =>
    cases ps with
    | nil =>
      rw [show joinDot [p] = p from rfl]
      exact splitDot_no_dot p (hnd p (List.mem_cons_self p []))
    | cons q qs =>
      rw [show joinDot (p :: q :: qs) = p ++ '.' :: joinDot (q :: qs) from rfl,
        splitDot_append_dot p (hnd p (List.mem_cons_self p _)) _,
        ih (by simp) (fun r hr => hnd r (List.mem_cons_of_mem p hr))]

/-- The default-last element of a nonempty list is a member. -/
theorem getLastD_mem {α : Type} (l : List α) (d : α) (h : l ≠ []) :
    l.getLastD d ∈ l := by
  induction l generalizing d with
  | nil => contradiction
  | cons a rest ih =>
    rw [List.getLastD_cons]
    cases hr : rest with
    | nil =>
      subst hr
      simp [List.getLastD]
    | cons b rs =>
      subst hr
      exact List.mem_cons_of_mem a (ih a (by simp))

/-- Whatever the replacement step keeps was already in the string. -/
theorem removeTriple_subset (p1 p2 p3 : Char) (cs : List Char) :
    ∀ c ∈ removeTriple p1 p2 p3 cs, c ∈ cs := by
  have H : ∀ (n : Nat) (cs : List Char), cs.length ≤ n →
      ∀ c ∈ removeTriple p1 p2 p3 cs, c ∈ cs := by
    intro n
    induction n with
    | zero =>
      intro cs hl c hc
      have he : cs = [] := List.length_eq_zero.mp (Nat.le_zero.mp hl)
      subst he
      simp [removeTriple] at hc
    | succ n ih =>
      intro cs hl c hc
      rcases cs with _ | ⟨c1, _ | ⟨c2, _ | ⟨c3, rest⟩⟩⟩
      · simp [removeTriple] at hc
      · simpa [removeTriple] using hc
      · simpa [removeTriple] using hc
      · rw [show removeTriple p1 p2 p3 (c1 :: c2 :: c3 :: rest) =
            if c1 = p1 ∧ c2 = p2 ∧ c3 = p3 then removeTriple p1 p2 p3 rest
            else c1 :: removeTriple p1 p2 p3 (c2 :: c3 :: rest) from rfl] at hc
        split at hc
        · have hm := ih rest (by simp at hl; omega) c hc
          exact List.mem_cons_of_mem c1 (List.mem_cons_of_mem c2 (List.mem_cons_of_mem c3 hm))
        · rcases List.mem_cons.mp hc with he | hm
          · rw [he]
            exact List.mem_cons_self c1 _
          · exact List.mem_cons_of_mem c1 (ih (c2 :: c3 :: rest) (by simp at hl ⊢; omega) c hm)
  exact fun c hc => H cs.length cs le_rfl c hc

/-- When the three-character pattern does not occur, the replacement step is
the identity. -/
theorem removeTriple_id (p1 p2 p3 : Char) (cs : List Char)
    (h : hasSub [p1, p2, p3] cs = false) : removeTriple p1 p2 p3 cs = cs := by
  have H : ∀ (n : Nat) (cs : List Char), cs.length ≤ n →
      hasSub [p1, p2, p3] cs = false → removeTriple p1 p2 p3 cs = cs := by
    intro n
    induction n with
    | zero =>
      intro cs hl _
      have he : cs = [] := List.length_eq_zero.mp (Nat.le_zero.mp hl)
      subst he
      rfl
    | succ n ih =>
      intro cs hl hns
      rcases cs with _ | ⟨c1, _ | ⟨c2, _ | ⟨c3, rest⟩⟩⟩
      · rfl
      · rfl
      · rfl
      · rw [show hasSub [p1, p2, p3] (c1 :: c2 :: c3 :: rest) =
            (startsL [p1, p2, p3] (c1 :: c2 :: c3 :: rest) ||
              hasSub [p1, p2, p3] (c2 :: c3 :: rest)) from rfl,
          Bool.or_eq_false_iff] at hns
        obtain ⟨hst, hrest⟩ := hns
        have hcond : ¬(c1 = p1 ∧ c2 = p2 ∧ c3 = p3) := by
          rintro ⟨e1, e2, e3⟩
          subst e1
          subst e2
          subst e3
          simp [startsL] at hst
        rw [show removeTriple p1 p2 p3 (c1 :: c2 :: c3 :: rest) =
            if c1 = p1 ∧ c2 = p2 ∧ c3 = p3 then removeTriple p1 p2 p3 rest
            else c1 :: removeTriple p1 p2 p3 (c2 :: c3 :: rest) from rfl,
          if_neg hcond, ih (c2 :: c3 :: rest) (by simp at hl ⊢; omega) hrest]
  exact H cs.length cs le_rfl h

/-- Lowercasing cannot introduce a dot. -/
theorem no_dot_lowerL (cs : List Char) (h : '.' ∉ cs) : '.' ∉ lowerL cs := by
  intro hm
  obtain ⟨c0, hc0, he⟩ := List.mem_map.mp hm
  exact lowerChar_ne_dot (fun e => h (e ▸ hc0)) he

/-- Removing a pattern cannot introduce a dot. -/
theorem no_dot_removeTriple (p1 p2 p3 : Char) (cs : List Char) (h : '.' ∉ cs) :
    '.' ∉ removeTriple p1 p2 p3 cs :=
  fun hm => h (removeTriple_subset p1 p2 p3 cs '.' hm)

/-- Each character of a lowercased string is in the image of `lowerChar`. -/
theorem lowerL_mem (cs : List Char) (c : Char) (h : c ∈ lowerL cs) :
    ∃ c0, c = lowerChar c0 := by
  obtain ⟨c0, _, he⟩ := List.mem_map.mp h
  exact ⟨c0, he.symm⟩

/-- Lowercasing is the identity on already-folded strings. -/
theorem lowerL_id_of (cs : List Char) (h : ∀ c ∈ cs, lowerChar c = c) :
    lowerL cs = cs :=
  map_id_on lowerChar cs h

/-- `cleanOneEmail`, unfolded. -/
theorem cleanOneEmail_eq (email : String) :
    cleanOneEmail email = String.mk (joinDot ((splitDot email.data).dropLast ++
      [removeTriple 'w' 'w' 'w' (removeTriple 'w' 'e' 'b'
        (lowerL ((splitDot email.data).getLastD [])))])) := rfl

/-- `cleanOneEmail` on a string presented as joined dot-free parts: only the
last part is rewritten. -/
theorem cleanOneEmail_of_parts (init : List (List Char)) (last : List Char)
    (hnd : ∀ p ∈ init ++ [last], '.' ∉ p) :
    cleanOneEmail (String.mk (joinDot (init ++ [last]))) =
      String.mk (joinDot (init ++ [removeTriple 'w' 'w' 'w'
        (removeTriple 'w' 'e' 'b' (lowerL last))])) := by
  have h1 : splitDot (String.mk (joinDot (init ++ [last]))).data = init ++ [last] :=
    splitDot_joinDot _ (by simp) hnd
  rw [cleanOneEmail_eq, h1, List.getLastD_concat, List.dropLast_concat]

/-- One cleaning pass is a fixed point of the next, provided the cleaned
final segment no longer contains `web` or `www` (deleting an occurrence
can otherwise splice a fresh one together). -/
theorem cleanOneEmail_idem (y : String)
    (h1 : hasSub (("web").data) ((lastSegOf (cleanOneEmail y)).data) = false)
    (h2 : hasSub (("www").data) ((lastSegOf (cleanOneEmail y)).data) = false) :
    cleanOneEmail (cleanOneEmail y) = cleanOneEmail y := by
  have hpartsnd : ∀ p ∈ splitDot y.data, '.' ∉ p := splitDot_parts_no_dot y.data
  have hpne : splitDot y.data ≠ [] := splitDot_ne_nil y.data
  have hlastnd : '.' ∉ (splitDot y.data).getLastD [] :=
    hpartsnd _ (getLastD_mem _ _ hpne)
  have hclnd : '.' ∉ removeTriple 'w' 'w' 'w' (removeTriple 'w' 'e' 'b'
      (lowerL ((splitDot y.data).getLastD []))) :=
    no_dot_removeTriple _ _ _ _ (no_dot_removeTriple _ _ _ _ (no_dot_lowerL _ hlastnd))
  have hnd : ∀ p ∈ (splitDot y.data).dropLast ++ [removeTriple 'w' 'w' 'w'
      (removeTriple 'w' 'e' 'b' (lowerL ((splitDot y.data).getLastD [])))], '.' ∉ p := by
    intro p hp
    rcases List.mem_append.mp hp with hm | hm
    · exact hpartsnd p (List.dropLast_subset _ hm)
    · cases List.mem_singleton.mp hm
      exact hclnd
  have hy' : cleanOneEmail y = String.mk (joinDot ((splitDot y.data).dropLast ++
      [removeTriple 'w' 'w' 'w' (removeTriple 'w' 'e' 'b'
        (lowerL ((splitDot y.data).getLastD [])))])) := rfl
  have hsp : splitDot (cleanOneEmail y).data = (splitDot y.data).dropLast ++
      [removeTriple 'w' 'w' 'w' (removeTriple 'w' 'e' 'b'
        (lowerL ((splitDot y.data).getLastD [])))] := by
    rw [hy']
    exact splitDot_joinDot _ (by simp) hnd
  have hlastSeg : (lastSegOf (cleanOneEmail y)).data =
      removeTriple 'w' 'w' 'w' (removeTriple 'w' 'e' 'b'
        (lowerL ((splitDot y.data).getLastD []))) := by
    show (splitDot (cleanOneEmail y).data).getLastD [] = _
    rw [hsp, List.getLastD_concat]
  rw [hlastSeg] at h1 h2
  have hlower : lowerL (removeTriple 'w' 'w' 'w' (removeTriple 'w' 'e' 'b'
      (lowerL ((splitDot y.data).getLastD [])))) =
      removeTriple 'w' 'w' 'w' (removeTriple 'w' 'e' 'b'
        (lowerL ((splitDot y.data).getLastD []))) := by
    apply lowerL_id_of
    intro c hc
    have hc2 : c ∈ removeTriple 'w' 'e' 'b' (lowerL ((splitDot y.data).getLastD [])) :=
      removeTriple_subset _ _ _ _ c hc
    have hc3 : c ∈ lowerL ((splitDot y.data).getLastD []) :=
      removeTriple_subset _ _ _ _ c hc2
    obtain ⟨c0, he⟩ := lowerL_mem _ c hc3
    rw [he, lowerChar_idem]
  have hrem1 : removeTriple 'w' 'e' 'b' (removeTriple 'w' 'w' 'w'
      (removeTriple 'w' 'e' 'b' (lowerL ((splitDot y.data).getLastD [])))) =
      removeTriple 'w' 'w' 'w' (removeTriple 'w' 'e' 'b'
        (lowerL ((splitDot y.data).getLastD []))) :=
    removeTriple_id _ _ _ _ h1
  have hrem2 : removeTriple 'w' 'w' 'w' (removeTriple 'w' 'w' 'w'
      (removeTriple 'w' 'e' 'b' (lowerL ((splitDot y.data).getLastD [])))) =
      removeTriple 'w' 'w' 'w' (removeTriple 'w' 'e' 'b'
        (lowerL ((splitDot y.data).getLastD []))) :=
    removeTriple_id _ _ _ _ h2
  conv_lhs => rw [hy']
  rw [cleanOneEmail_of_parts _ _ hnd, hlower, hrem1, hrem2, ← hy']

/-- The email normalizer is a fixed point on its own output as long as no
cleaned final segment still contains `web` or `www`. -/
theorem clean_emails_fixed (emails : List String)
    (he : ∀ e ∈ clean_emails emails,
      hasSub (("web").data) ((lastSegOf e).data) = false ∧
        hasSub (("www").data) ((lastSegOf e).data) = false) :
    clean_emails (clean_emails emails) = clean_emails emails := by
  cases emails with
  | nil => rfl
  | cons e rest =>
    have h1 : clean_emails (e :: rest) = (e :: rest).map cleanOneEmail := by
      simp [clean_emails]
    have h2 : clean_emails ((e :: rest).map cleanOneEmail) =
        ((e :: rest).map cleanOneEmail).map cleanOneEmail := by
      simp [clean_emails]
    rw [h1, h2]
    apply map_id_on
    intro x hx
    obtain ⟨y, hy, hxy⟩ := List.mem_map.mp hx
    subst hxy
    have hex := he (cleanOneEmail y) (by rw [h1]; exact hx)
    exact cleanOneEmail_idem y hex.1 hex.2

/-- C4, amended: re-running the normalizers on their own output is a no-op
under the side conditions the counterexample forces — no emitted phone may
still begin with `+3590` (or a second pass strips another zero), and no
cleaned email's final dot-segment may still contain `web` or `www` (or a
second pass deletes the occurrence spliced together by the first). -/
theorem C4_amended_conditional_idempotence (phones emails : List String)
    (hp : ∀ s ∈ clean_phone_number phones, startsL (("+3590").data) s.data = false)
    (he : ∀ e ∈ clean_emails emails,
      hasSub (("web").data) ((lastSegOf e).data) = false ∧
        hasSub (("www").data) ((lastSegOf e).data) = false) :
    clean_phone_number (clean_phone_number phones) = clean_phone_number phones ∧
      clean_emails (clean_emails emails) = clean_emails emails :=
  ⟨clean_phone_number_fixed phones hp, clean_emails_fixed emails he⟩

/-- Witness for the amended C4: the docstring inputs satisfy both side
conditions, and re-running both normalizers on their outputs is a no-op. -/
theorem C4_amended_witness :
    clean_phone_number (clean_phone_number ["02/987 02 35"]) =
      clean_phone_number ["02/987 02 35"] ∧
      clean_emails (clean_emails ["info@abc.bg"]) = clean_emails ["info@abc.bg"] :=
  C4_amended_conditional_idempotence ["02/987 02 35"] ["info@abc.bg"]
    (by decide) (by decide)
